import Mathlib

/-!
Verification of `AppendArray<T, N>` (src/src/lib.rs): a fixed-capacity,
thread-safe, append-only array.  The Rust struct holds two atomic counters
(`ticket`, `len`) and a fixed array of `N` possibly-uninitialized slots.

Two embeddings are developed, both translated directly from the source:

* a sequential functional semantics (`AppendArray.append`), in which the
  busy-wait loop of step 4 is modelled by `Option`: `none` means the loop
  would spin forever in a sequential execution;

* a fine-grained interleaved small-step semantics (`Step`), in which each
  atomic access of `append` is one transition of one thread, so that the
  concurrent claims (ticket uniqueness, publication order, capacity bound)
  can be stated over all reachable configurations.

Uninitialized slots are modelled as `none`; a slot holding `some v` has been
written with `v`.  A slice index out of bounds (a Rust panic) is modelled by
`none` in `AppendArray.index`.
-/

/-- The single error of the library (src line 14..17): the array is full. -/
inductive AppendArrayError where
  | ArrayFull
  deriving DecidableEq, Repr

/-- Rust `core::sync::atomic::Ordering` values used by the source. -/
inductive MemOrdering where
  | relaxed
  | acquire
  | release
  deriving DecidableEq, Repr

variable {T : Type}

/-- The struct `AppendArray<T, N>` (src lines 20..24): a ticket counter, a
length counter, and `N` slots of possibly-uninitialized storage.  Storage is
modelled as a map from slot index to `Option T`, `none` meaning
uninitialized. -/
structure AppendArray (T : Type) (N : Nat) where
  ticket : Nat
  len : Nat
  array : Nat → Option T

/-- `Default::default()` (src lines 43..51): both counters zero, all slots
uninitialized. -/
def AppendArray.default (T : Type) (N : Nat) : AppendArray T N :=
  { ticket := 0, len := 0, array := fun _ => none }

/-- Sequential semantics of `append` (src lines 66..93), executed atomically
by a single caller with no interference.  Returns `none` when the busy-wait
loop of step 4 (`while len != ticket`) would spin forever sequentially,
i.e. when the reserved ticket is in bounds but `len ≠ ticket`. -/
def AppendArray.append (a : AppendArray T N) (item : T) :
    Option (Except AppendArrayError Nat × AppendArray T N) :=
  -- `ticket.fetch_add(1, Relaxed)`: returns the old value, increments
  let ticket := a.ticket
  let a1 : AppendArray T N := { a with ticket := a.ticket + 1 }
  if N ≤ ticket then
    -- `ticket.fetch_sub(1, Relaxed)`, then `Err(ArrayFull)`
    some (Except.error AppendArrayError.ArrayFull, { a1 with ticket := a1.ticket - 1 })
  else
    -- write `item` into slot `ticket`
    let a2 : AppendArray T N :=
      { a1 with array := fun j => if j = ticket then some item else a1.array j }
    -- `while len.load(Relaxed) != ticket { spin_loop() }`
    if a2.len = ticket then
      -- `len.fetch_add(1, Release)`, then `Ok(ticket)`
      some (Except.ok ticket, { a2 with len := a2.len + 1 })
    else
      none

/-- Runs `append` once per element of `items`, left to right, collecting the
results (the sequential driver used by the tests of the library).  `none` if
some call diverges. -/
def AppendArray.appendAll (a : AppendArray T N) :
    List T → Option (List (Except AppendArrayError Nat) × AppendArray T N)
  | [] => some ([], a)
  | x :: xs =>
    match a.append x with
    | none => none
    | some (r, a2) =>
      match a2.appendAll xs with
      | none => none
      | some (rs, a3) => some (r :: rs, a3)

/-- Reading the `Deref` view (src lines 31..41) at index `i`: the slice has
length `len`, so `i ≥ len` is an out-of-bounds panic, modelled as `none`. -/
def AppendArray.index (a : AppendArray T N) (i : Nat) : Option T :=
  if i < a.len then a.array i else none

/-- `slice::last()` on the `Deref` view: the most recently published element,
or `none` when the readable prefix is empty. -/
def AppendArray.lastElem (a : AppendArray T N) : Option T :=
  if a.len = 0 then none else a.index (a.len - 1)

/-- The sequence of slot indices whose destructor `Drop` runs
(src lines 53..61): `for i in 0..len { array[i].assume_init_drop() }`. -/
def AppendArray.dropTargets (a : AppendArray T N) : List Nat :=
  List.range a.len

/-- The atomic accesses of `append` in program order with the `Ordering`
each uses in the source (src lines 68, 72, 84, 89). -/
def appendAtomicOrderings : List (String × MemOrdering) :=
  [("ticket.fetch_add", MemOrdering.relaxed),
   ("ticket.fetch_sub", MemOrdering.relaxed),
   ("len.load", MemOrdering.relaxed),
   ("len.fetch_add", MemOrdering.release)]

/-- The atomic accesses of the `Deref` read view with their orderings
(src line 37): a single acquire-load of `len` sizes the readable slice. -/
def derefAtomicOrderings : List (String × MemOrdering) :=
  [("len.load", MemOrdering.acquire)]

/-- The atomic accesses of `Drop` with their orderings (src line 55). -/
def dropAtomicOrderings : List (String × MemOrdering) :=
  [("len.load", MemOrdering.relaxed)]

/-- Control state of one in-flight `append` call under the interleaved
semantics: each constructor is a point between two atomic accesses of
`append` (src lines 66..93).  The argument `item` of the call is carried
throughout so that results can be related to inputs. -/
inductive TState (T : Type) where
  | start (item : T)
  | gotTicket (t : Nat) (item : T)
  | waiting (t : Nat) (item : T)
  | doneOk (t : Nat) (item : T)
  | doneErr (item : T)

/-- Global configuration: the shared `AppendArray` plus the control state of
every `append` call (one entry per call; a thread looping over `append`
contributes one entry per iteration). -/
structure Config (T : Type) (N : Nat) where
  shared : AppendArray T N
  threads : List (TState T)

/-- Interleaved small-step semantics of `append` (src lines 66..93): one
transition per atomic access, taken by an arbitrary call `i`.

* `fetchTicket`: `ticket.fetch_add(1, Relaxed)` — the call grabs the old
  counter value as its reservation (src line 68);
* `rollback`: the reservation is out of bounds, `ticket.fetch_sub(1,
  Relaxed)` and the call ends with `ArrayFull` (src lines 71..74);
* `writeSlot`: the in-bounds reservation writes `item` into its slot
  (src lines 77..79);
* `spinLoad`: the busy-wait loads `len` and finds it different from the
  held ticket, changing nothing (src lines 84..86);
* `publish`: `len` equals the held ticket, so `len.fetch_add(1, Release)`
  and the call ends with `Ok(ticket)` (src lines 89..92). -/
inductive Step (N : Nat) : Config T N → Config T N → Prop where
  | fetchTicket (c : Config T N) (i : Nat) (item : T)
      (h : c.threads[i]? = some (TState.start item)) :
      Step N c ⟨{ c.shared with ticket := c.shared.ticket + 1 },
        c.threads.set i (TState.gotTicket c.shared.ticket item)⟩
  | rollback (c : Config T N) (i t : Nat) (item : T)
      (h : c.threads[i]? = some (TState.gotTicket t item)) (hb : N ≤ t) :
      Step N c ⟨{ c.shared with ticket := c.shared.ticket - 1 },
        c.threads.set i (TState.doneErr item)⟩
  | writeSlot (c : Config T N) (i t : Nat) (item : T)
      (h : c.threads[i]? = some (TState.gotTicket t item)) (hb : t < N) :
      Step N c ⟨{ c.shared with
          array := fun j => if j = t then some item else c.shared.array j },
        c.threads.set i (TState.waiting t item)⟩
  | spinLoad (c : Config T N) (i t : Nat) (item : T)
      (h : c.threads[i]? = some (TState.waiting t item))
      (hne : c.shared.len ≠ t) :
      Step N c c
  | publish (c : Config T N) (i t : Nat) (item : T)
      (h : c.threads[i]? = some (TState.waiting t item))
      (heq : c.shared.len = t) :
      Step N c ⟨{ c.shared with len := c.shared.len + 1 },
        c.threads.set i (TState.doneOk t item)⟩

/-- The initial configuration: a freshly constructed array and one pending
`append(item)` call per element of `items`. -/
def initConfig (N : Nat) (items : List T) : Config T N :=
  ⟨AppendArray.default T N, items.map TState.start⟩

/-- Configurations reachable from `initConfig` by interleaved execution. -/
def Reachable (N : Nat) (items : List T) (c : Config T N) : Prop :=
  Relation.ReflTransGen (Step N) (initConfig N items) c

/-- Whether a call currently holds a successful (in-bounds) reservation or
has completed successfully. -/
def TState.isSucc (N : Nat) : TState T → Bool
  | TState.gotTicket t _ => decide (t < N)
  | TState.waiting _ _ => true
  | TState.doneOk _ _ => true
  | _ => false

/-- Whether a call holds an out-of-bounds reservation it has not yet rolled
back. -/
def TState.isPending (N : Nat) : TState T → Bool
  | TState.gotTicket t _ => decide (N ≤ t)
  | _ => false

/-- Whether a call has returned `Ok`. -/
def TState.isOk : TState T → Bool
  | TState.doneOk _ _ => true
  | _ => false

/-- The slot reserved by a call holding a successful reservation. -/
def TState.succTicket (N : Nat) : TState T → Option Nat
  | TState.gotTicket t _ => if t < N then some t else none
  | TState.waiting t _ => some t
  | TState.doneOk t _ => some t
  | _ => none

/-- Number of successful reservations ever granted (the
`next_ticket_effective` of the spec). -/
def succCount (N : Nat) (ths : List (TState T)) : Nat :=
  ths.countP (fun s => TState.isSucc N s)

/-- Number of out-of-bounds reservations not yet rolled back. -/
def pendingCount (N : Nat) (ths : List (TState T)) : Nat :=
  ths.countP (fun s => TState.isPending N s)

/-- Number of calls that have returned `Ok`. -/
def okCount (ths : List (TState T)) : Nat :=
  ths.countP (fun s => TState.isOk s)

/-- The successful reservation (if any) held by call `i` of a thread list. -/
def succTicketAt (N : Nat) (ths : List (TState T)) (i : Nat) : Option Nat :=
  (ths[i]?).bind (fun s => TState.succTicket N s)

/-- Replacing one element changes `countP` by exactly the difference of the
contributions of the old and new elements. -/
theorem countP_set_get {α : Type} (p : α → Bool) :
    ∀ (l : List α) (i : Nat) (b a : α), l[i]? = some b →
      (l.set i a).countP p + (if p b then 1 else 0) =
        l.countP p + (if p a then 1 else 0) := by
  intro l
  induction l with
  | nil => intro i b a h; simp at h
  | cons x xs ih =>
    intro i b a h
    cases i with
    | zero =>
      simp only [List.getElem?_cons_zero, Option.some.injEq] at h
      subst h
      simp only [List.set_cons_zero, List.countP_cons]
      omega
    | succ n =>
      simp only [List.getElem?_cons_succ] at h
      simp only [List.set_cons_succ, List.countP_cons]
      have := ih n b a h
      omega

/-- A position holding `some` is in bounds, so `set` at it is visible. -/
theorem getElem?_set_of_get {α : Type} {l : List α} {i : Nat} {b : α}
    (h : l[i]? = some b) (a : α) : (l.set i a)[i]? = some a :=
  List.getElem?_set_self (List.getElem?_eq_some.mp h).1

/-- The inductive invariant of the interleaved semantics.  `succCount` is
the `next_ticket_effective` of the spec: the number of successful reservations
ever granted. -/
structure ArrInv (N : Nat) (c : Config T N) : Prop where
  ticket_eq : c.shared.ticket = succCount N c.threads + pendingCount N c.threads
  succ_le : succCount N c.threads ≤ N
  pending_full : 0 < pendingCount N c.threads → succCount N c.threads = N
  len_eq : c.shared.len = okCount c.threads
  ok_lt_len : ∀ (i t : Nat) (item : T),
    c.threads[i]? = some (TState.doneOk t item) →
    t < c.shared.len
  tk_lt_succ : ∀ (i t : Nat), succTicketAt N c.threads i = some t →
    t < succCount N c.threads
  tk_distinct : ∀ (i j ti tj : Nat), i ≠ j →
    succTicketAt N c.threads i = some ti →
    succTicketAt N c.threads j = some tj → ti ≠ tj
  tk_surj : ∀ t : Nat, t < succCount N c.threads →
    ∃ i : Nat, succTicketAt N c.threads i = some t
  ok_surj : ∀ t : Nat, t < c.shared.len →
    ∃ (i : Nat) (item : T), c.threads[i]? = some (TState.doneOk t item)
  slot_val : ∀ (i t : Nat) (item : T),
    (c.threads[i]? = some (TState.waiting t item) ∨
      c.threads[i]? = some (TState.doneOk t item)) →
    c.shared.array t = some item
  err_full : (∃ (i : Nat) (item : T),
    c.threads[i]? = some (TState.doneErr item)) → succCount N c.threads = N

/-- The initial configuration satisfies the invariant. -/
theorem inv_init (N : Nat) (items : List T) : ArrInv N (initConfig N items) := by
  have hget : ∀ i : Nat, ((items.map TState.start)[i]?) =
      (items[i]?).map TState.start := by
    intro i; simp [List.getElem?_map]
  have hcount : ∀ p : TState T → Bool, (∀ x : T, p (TState.start x) = false) →
      (items.map TState.start).countP p = 0 := by
    intro p hp
    apply List.countP_eq_zero.mpr
    intro s hs
    rcases List.mem_map.mp hs with ⟨x, _, rfl⟩
    simp [hp]
  constructor <;>
    simp only [initConfig, AppendArray.default, succCount, pendingCount,
      okCount]
  case ticket_eq =>
    rw [hcount _ (fun x => rfl), hcount _ (fun x => rfl)]
  case succ_le => rw [hcount _ (fun x => rfl)]; exact Nat.zero_le N
  case pending_full => rw [hcount _ (fun x => rfl)]; omega
  case len_eq => rw [hcount _ (fun x => rfl)]
  case ok_lt_len =>
    intro i t item h
    rw [hget] at h
    cases hi : items[i]? with
    | none => rw [hi] at h; simp at h
    | some x => rw [hi] at h; simp at h
  case tk_lt_succ =>
    intro i t h
    rw [succTicketAt, hget] at h
    cases hi : items[i]? with
    | none => rw [hi] at h; simp at h
    | some x => rw [hi] at h; simp [TState.succTicket] at h
  case tk_distinct =>
    intro i j ti tj hne hi hj
    rw [succTicketAt, hget] at hi
    cases hii : items[i]? with
    | none => rw [hii] at hi; simp at hi
    | some x => rw [hii] at hi; simp [TState.succTicket] at hi
  case tk_surj =>
    intro t ht
    rw [hcount _ (fun x => rfl)] at ht
    omega
  case ok_surj => intro t ht; omega
  case slot_val =>
    intro i t item h
    rcases h with h | h <;> rw [hget] at h <;>
      cases hi : items[i]? with
      | none => rw [hi] at h; simp at h
      | some x => rw [hi] at h; simp at h
  case err_full =>
    rintro ⟨i, item, hi⟩
    rw [hget] at hi
    cases hx : items[i]? with
    | none => rw [hx] at hi; simp at hi
    | some x => rw [hx] at hi; simp at hi

/-- `succCount` after replacing one control state. -/
theorem succCount_set (N : Nat) (ths : List (TState T)) (i : Nat)
    {b : TState T} (h : ths[i]? = some b) (a : TState T) :
    succCount N (ths.set i a) + (if TState.isSucc N b = true then 1 else 0) =
      succCount N ths + (if TState.isSucc N a = true then 1 else 0) :=
  countP_set_get (fun s => TState.isSucc N s) ths i b a h

/-- `pendingCount` after replacing one control state. -/
theorem pendingCount_set (N : Nat) (ths : List (TState T)) (i : Nat)
    {b : TState T} (h : ths[i]? = some b) (a : TState T) :
    pendingCount N (ths.set i a) +
        (if TState.isPending N b = true then 1 else 0) =
      pendingCount N ths + (if TState.isPending N a = true then 1 else 0) :=
  countP_set_get (fun s => TState.isPending N s) ths i b a h

/-- `okCount` after replacing one control state. -/
theorem okCount_set (ths : List (TState T)) (i : Nat)
    {b : TState T} (h : ths[i]? = some b) (a : TState T) :
    okCount (ths.set i a) + (if TState.isOk b = true then 1 else 0) =
      okCount ths + (if TState.isOk a = true then 1 else 0) :=
  countP_set_get (fun s => TState.isOk s) ths i b a h

theorem inv_step {N : Nat} {c c2 : Config T N} (hinv : ArrInv N c)
    (hs : Step N c c2) : ArrInv N c2 := by
  cases hs with
  | spinLoad i t item h hne => exact hinv
  | fetchTicket i item h =>
    have hset := getElem?_set_of_get h (TState.gotTicket c.shared.ticket item)
    have hother : ∀ j, j ≠ i →
        (c.threads.set i (TState.gotTicket c.shared.ticket item))[j]? =
          c.threads[j]? :=
      fun j hj => List.getElem?_set_ne hj.symm
    have hS := succCount_set N c.threads i h
      (TState.gotTicket c.shared.ticket item)
    have hP := pendingCount_set N c.threads i h
      (TState.gotTicket c.shared.ticket item)
    have hK := okCount_set c.threads i h
      (TState.gotTicket c.shared.ticket item)
    simp only [TState.isSucc, TState.isPending, TState.isOk,
      Bool.false_eq_true, if_false, decide_eq_true_eq] at hS hP hK
    have he := hinv.ticket_eq
    have hsl := hinv.succ_le
    have hlen := hinv.len_eq
    by_cases htk : c.shared.ticket < N
    · -- in-bounds reservation: one more successful reservation
      rw [if_pos htk] at hS
      rw [if_neg (by omega : ¬ N ≤ c.shared.ticket)] at hP
      have hPz : pendingCount N c.threads = 0 := by
        by_contra hne
        have := hinv.pending_full (Nat.pos_of_ne_zero hne)
        omega
      have hS2 : succCount N
          (c.threads.set i (TState.gotTicket c.shared.ticket item)) =
            succCount N c.threads + 1 := by omega
      have hP2 : pendingCount N
          (c.threads.set i (TState.gotTicket c.shared.ticket item)) = 0 := by
        omega
      have hK2 : okCount
          (c.threads.set i (TState.gotTicket c.shared.ticket item)) =
            okCount c.threads := by omega
      have htkS : c.shared.ticket = succCount N c.threads := by omega
      refine ⟨?_, ?_, ?_, ?_, ?_, ?_, ?_, ?_, ?_, ?_, ?_⟩
      · show c.shared.ticket + 1 = _
        rw [hS2, hP2]; omega
      · show succCount N _ ≤ N
        rw [hS2]; omega
      · show 0 < pendingCount N _ → _
        rw [hP2]; omega
      · show c.shared.len = okCount _
        rw [hK2]; omega
      · intro j t2 item2 hj
        show t2 < c.shared.len
        rcases eq_or_ne j i with rfl | hne
        · rw [hset] at hj; exact absurd hj (by simp)
        · rw [hother j hne] at hj; exact hinv.ok_lt_len j t2 item2 hj
      · intro j t2 hj
        show t2 < succCount N _
        rw [hS2]
        rcases eq_or_ne j i with rfl | hne
        · rw [succTicketAt, hset] at hj
          simp only [Option.some_bind, TState.succTicket, if_pos htk,
            Option.some.injEq] at hj
          omega
        · rw [succTicketAt, hother j hne] at hj
          have := hinv.tk_lt_succ j t2 hj
          omega
      · intro j k tj tk2 hjk hj hk
        rcases eq_or_ne j i with rfl | hnej
        · rw [succTicketAt, hset] at hj
          simp only [Option.some_bind, TState.succTicket, if_pos htk,
            Option.some.injEq] at hj
          rw [succTicketAt, hother k (fun e => hjk e.symm)] at hk
          have := hinv.tk_lt_succ k tk2 hk
          omega
        · rw [succTicketAt, hother j hnej] at hj
          rcases eq_or_ne k i with rfl | hnek
          · rw [succTicketAt, hset] at hk
            simp only [Option.some_bind, TState.succTicket, if_pos htk,
              Option.some.injEq] at hk
            have := hinv.tk_lt_succ j tj hj
            omega
          · rw [succTicketAt, hother k hnek] at hk
            exact hinv.tk_distinct j k tj tk2 hjk hj hk
      · intro t2 ht2
        rw [hS2] at ht2
        rcases Nat.lt_succ_iff_lt_or_eq.mp ht2 with hlt | rfl
        · rcases hinv.tk_surj t2 hlt with ⟨j, hj⟩
          have hnej : j ≠ i := by
            intro e
            rw [e, succTicketAt, h] at hj
            simp [TState.succTicket] at hj
          exact ⟨j, by rw [succTicketAt, hother j hnej]; exact hj⟩
        · refine ⟨i, ?_⟩
          rw [succTicketAt, hset, Option.some_bind]
          show (if c.shared.ticket < N then some c.shared.ticket else none) = _
          rw [if_pos htk, htkS]
      · intro t2 ht2
        rcases hinv.ok_surj t2 ht2 with ⟨j, item2, hj⟩
        have hnej : j ≠ i := by
          intro e; rw [e, h] at hj; exact absurd hj (by simp)
        exact ⟨j, item2, by rw [hother j hnej]; exact hj⟩
      · intro j t2 item2 hj
        show c.shared.array t2 = some item2
        rcases eq_or_ne j i with rfl | hne
        · rw [hset] at hj
          rcases hj with hj | hj <;> exact absurd hj (by simp)
        · rw [hother j hne] at hj
          exact hinv.slot_val j t2 item2 hj
      · rintro ⟨j, item2, hj⟩
        have hnej : j ≠ i := by
          intro e; rw [e, hset] at hj; exact absurd hj (by simp)
        rw [hother j hnej] at hj
        have := hinv.err_full ⟨j, item2, hj⟩
        omega
    · -- out-of-bounds reservation: one more pending reservation
      rw [if_neg (by omega : ¬ c.shared.ticket < N)] at hS
      rw [if_pos (by omega : N ≤ c.shared.ticket)] at hP
      have hS2 : succCount N
          (c.threads.set i (TState.gotTicket c.shared.ticket item)) =
            succCount N c.threads := by omega
      have hP2 : pendingCount N
          (c.threads.set i (TState.gotTicket c.shared.ticket item)) =
            pendingCount N c.threads + 1 := by omega
      have hK2 : okCount
          (c.threads.set i (TState.gotTicket c.shared.ticket item)) =
            okCount c.threads := by omega
      have hfull : succCount N c.threads = N := by
        rcases Nat.eq_zero_or_pos (pendingCount N c.threads) with hz | hp
        · omega
        · exact hinv.pending_full hp
      refine ⟨?_, ?_, ?_, ?_, ?_, ?_, ?_, ?_, ?_, ?_, ?_⟩
      · show c.shared.ticket + 1 = _
        rw [hS2, hP2]; omega
      · show succCount N _ ≤ N
        rw [hS2]; omega
      · show 0 < pendingCount N _ → _
        rw [hP2, hS2]; omega
      · show c.shared.len = okCount _
        rw [hK2]; omega
      · intro j t2 item2 hj
        show t2 < c.shared.len
        rcases eq_or_ne j i with rfl | hne
        · rw [hset] at hj; exact absurd hj (by simp)
        · rw [hother j hne] at hj; exact hinv.ok_lt_len j t2 item2 hj
      · intro j t2 hj
        show t2 < succCount N _
        rw [hS2]
        rcases eq_or_ne j i with rfl | hne
        · rw [succTicketAt, hset, Option.some_bind] at hj
          simp only [TState.succTicket] at hj
          rw [if_neg htk] at hj
          exact absurd hj (by simp)
        · rw [succTicketAt, hother j hne] at hj
          exact hinv.tk_lt_succ j t2 hj
      · intro j k tj tk2 hjk hj hk
        rcases eq_or_ne j i with rfl | hnej
        · rw [succTicketAt, hset, Option.some_bind] at hj
          simp only [TState.succTicket] at hj
          rw [if_neg htk] at hj
          exact absurd hj (by simp)
        · rw [succTicketAt, hother j hnej] at hj
          rcases eq_or_ne k i with rfl | hnek
          · rw [succTicketAt, hset, Option.some_bind] at hk
            simp only [TState.succTicket] at hk
            rw [if_neg htk] at hk
            exact absurd hk (by simp)
          · rw [succTicketAt, hother k hnek] at hk
            exact hinv.tk_distinct j k tj tk2 hjk hj hk
      · intro t2 ht2
        rw [hS2] at ht2
        rcases hinv.tk_surj t2 ht2 with ⟨j, hj⟩
        have hnej : j ≠ i := by
          intro e
          rw [e, succTicketAt, h] at hj
          simp [TState.succTicket] at hj
        exact ⟨j, by rw [succTicketAt, hother j hnej]; exact hj⟩
      · intro t2 ht2
        rcases hinv.ok_surj t2 ht2 with ⟨j, item2, hj⟩
        have hnej : j ≠ i := by
          intro e; rw [e, h] at hj; exact absurd hj (by simp)
        exact ⟨j, item2, by rw [hother j hnej]; exact hj⟩
      · intro j t2 item2 hj
        show c.shared.array t2 = some item2
        rcases eq_or_ne j i with rfl | hne
        · rw [hset] at hj
          rcases hj with hj | hj <;> exact absurd hj (by simp)
        · rw [hother j hne] at hj
          exact hinv.slot_val j t2 item2 hj
      · intro hex
        show succCount N (c.threads.set i
          (TState.gotTicket c.shared.ticket item)) = N
        omega
  | rollback i t item h hb =>
    have hset := getElem?_set_of_get h (TState.doneErr item)
    have hother : ∀ j, j ≠ i →
        (c.threads.set i (TState.doneErr item))[j]? = c.threads[j]? :=
      fun j hj => List.getElem?_set_ne hj.symm
    have hS := succCount_set N c.threads i h (TState.doneErr item)
    have hP := pendingCount_set N c.threads i h (TState.doneErr item)
    have hK := okCount_set c.threads i h (TState.doneErr item)
    simp only [TState.isSucc, TState.isPending, TState.isOk,
      Bool.false_eq_true, if_false, decide_eq_true_eq] at hS hP hK
    rw [if_neg (by omega : ¬ t < N)] at hS
    rw [if_pos hb] at hP
    have he := hinv.ticket_eq
    have hsl := hinv.succ_le
    have hlen := hinv.len_eq
    have hfull : succCount N c.threads = N :=
      hinv.pending_full (by omega)
    have hsame : ∀ j, succTicketAt N (c.threads.set i (TState.doneErr item)) j =
        succTicketAt N c.threads j := by
      intro j
      rcases eq_or_ne j i with rfl | hne
      · rw [succTicketAt, hset, succTicketAt, h, Option.some_bind,
          Option.some_bind]
        simp only [TState.succTicket]
        rw [if_neg (by omega : ¬ t < N)]
      · rw [succTicketAt, hother j hne, succTicketAt]
    refine ⟨?_, ?_, ?_, ?_, ?_, ?_, ?_, ?_, ?_, ?_, ?_⟩
    · show c.shared.ticket - 1 =
        succCount N (c.threads.set i (TState.doneErr item)) +
          pendingCount N (c.threads.set i (TState.doneErr item))
      omega
    · show succCount N (c.threads.set i (TState.doneErr item)) ≤ N
      omega
    · show 0 < pendingCount N (c.threads.set i (TState.doneErr item)) →
        succCount N (c.threads.set i (TState.doneErr item)) = N
      omega
    · show c.shared.len = okCount (c.threads.set i (TState.doneErr item))
      omega
    · intro j t2 item2 hj
      show t2 < c.shared.len
      rcases eq_or_ne j i with rfl | hne
      · rw [hset] at hj; exact absurd hj (by simp)
      · rw [hother j hne] at hj; exact hinv.ok_lt_len j t2 item2 hj
    · intro j t2 hj
      rw [hsame j] at hj
      show t2 < succCount N (c.threads.set i (TState.doneErr item))
      have := hinv.tk_lt_succ j t2 hj
      omega
    · intro j k tj tk2 hjk hj hk
      rw [hsame j] at hj
      rw [hsame k] at hk
      exact hinv.tk_distinct j k tj tk2 hjk hj hk
    · intro t2 ht2
      have ht2c : t2 < succCount N (c.threads.set i (TState.doneErr item)) :=
        ht2
      have ht2b : t2 < succCount N c.threads := by omega
      rcases hinv.tk_surj t2 ht2b with ⟨j, hj⟩
      exact ⟨j, by rw [hsame j]; exact hj⟩
    · intro t2 ht2
      rcases hinv.ok_surj t2 ht2 with ⟨j, item2, hj⟩
      have hnej : j ≠ i := by
        intro e; rw [e, h] at hj; exact absurd hj (by simp)
      exact ⟨j, item2, by rw [hother j hnej]; exact hj⟩
    · intro j t2 item2 hj
      show c.shared.array t2 = some item2
      rcases eq_or_ne j i with rfl | hne
      · rw [hset] at hj
        rcases hj with hj | hj <;> exact absurd hj (by simp)
      · rw [hother j hne] at hj
        exact hinv.slot_val j t2 item2 hj
    · intro hex
      show succCount N (c.threads.set i (TState.doneErr item)) = N
      omega
  | writeSlot i t item h hb =>
    have hset := getElem?_set_of_get h (TState.waiting t item)
    have hother : ∀ j, j ≠ i →
        (c.threads.set i (TState.waiting t item))[j]? = c.threads[j]? :=
      fun j hj => List.getElem?_set_ne hj.symm
    have hS := succCount_set N c.threads i h (TState.waiting t item)
    have hP := pendingCount_set N c.threads i h (TState.waiting t item)
    have hK := okCount_set c.threads i h (TState.waiting t item)
    simp only [TState.isSucc, TState.isPending, TState.isOk,
      Bool.false_eq_true, if_false, decide_eq_true_eq, if_true] at hS hP hK
    rw [if_pos hb] at hS
    rw [if_neg (by omega : ¬ N ≤ t)] at hP
    have he := hinv.ticket_eq
    have hsl := hinv.succ_le
    have hlen := hinv.len_eq
    have htk_i : succTicketAt N c.threads i = some t := by
      rw [succTicketAt, h, Option.some_bind]
      simp only [TState.succTicket]
      rw [if_pos hb]
    have hsame : ∀ j,
        succTicketAt N (c.threads.set i (TState.waiting t item)) j =
          succTicketAt N c.threads j := by
      intro j
      rcases eq_or_ne j i with rfl | hne
      · rw [succTicketAt, hset, Option.some_bind, htk_i]
        simp only [TState.succTicket]
      · rw [succTicketAt, hother j hne, succTicketAt]
    refine ⟨?_, ?_, ?_, ?_, ?_, ?_, ?_, ?_, ?_, ?_, ?_⟩
    · show c.shared.ticket =
        succCount N (c.threads.set i (TState.waiting t item)) +
          pendingCount N (c.threads.set i (TState.waiting t item))
      omega
    · show succCount N (c.threads.set i (TState.waiting t item)) ≤ N
      omega
    · show 0 < pendingCount N (c.threads.set i (TState.waiting t item)) →
        succCount N (c.threads.set i (TState.waiting t item)) = N
      intro hpos
      have := hinv.pending_full (by omega)
      omega
    · show c.shared.len = okCount (c.threads.set i (TState.waiting t item))
      omega
    · intro j t2 item2 hj
      show t2 < c.shared.len
      rcases eq_or_ne j i with rfl | hne
      · rw [hset] at hj; exact absurd hj (by simp)
      · rw [hother j hne] at hj; exact hinv.ok_lt_len j t2 item2 hj
    · intro j t2 hj
      rw [hsame j] at hj
      show t2 < succCount N (c.threads.set i (TState.waiting t item))
      have := hinv.tk_lt_succ j t2 hj
      omega
    · intro j k tj tk2 hjk hj hk
      rw [hsame j] at hj
      rw [hsame k] at hk
      exact hinv.tk_distinct j k tj tk2 hjk hj hk
    · intro t2 ht2
      have ht2c : t2 < succCount N (c.threads.set i (TState.waiting t item)) :=
        ht2
      have ht2b : t2 < succCount N c.threads := by omega
      rcases hinv.tk_surj t2 ht2b with ⟨j, hj⟩
      exact ⟨j, by rw [hsame j]; exact hj⟩
    · intro t2 ht2
      rcases hinv.ok_surj t2 ht2 with ⟨j, item2, hj⟩
      have hnej : j ≠ i := by
        intro e; rw [e, h] at hj; exact absurd hj (by simp)
      exact ⟨j, item2, by rw [hother j hnej]; exact hj⟩
    · intro j t2 item2 hj
      show (if t2 = t then some item else c.shared.array t2) = some item2
      rcases eq_or_ne j i with rfl | hne
      · rcases hj with hj | hj
        · rw [hset] at hj
          have hj2 : t = t2 ∧ item = item2 := by simpa using hj
          rcases hj2 with ⟨rfl, rfl⟩
          rw [if_pos rfl]
        · rw [hset] at hj
          exact absurd hj (by simp)
      · rw [hother j hne] at hj
        have htj : succTicketAt N c.threads j = some t2 := by
          rcases hj with hj | hj <;>
            rw [succTicketAt, hj, Option.some_bind] <;>
            simp [TState.succTicket]
        have hne2 : t2 ≠ t :=
          hinv.tk_distinct j i t2 t hne htj htk_i
        rw [if_neg hne2]
        exact hinv.slot_val j t2 item2 hj
    · rintro ⟨j, item2, hj⟩
      have hnej : j ≠ i := by
        intro e; rw [e, hset] at hj; exact absurd hj (by simp)
      rw [hother j hnej] at hj
      have := hinv.err_full ⟨j, item2, hj⟩
      show succCount N (c.threads.set i (TState.waiting t item)) = N
      omega
  | publish i t item h heq =>
    have hset := getElem?_set_of_get h (TState.doneOk t item)
    have hother : ∀ j, j ≠ i →
        (c.threads.set i (TState.doneOk t item))[j]? = c.threads[j]? :=
      fun j hj => List.getElem?_set_ne hj.symm
    have hS := succCount_set N c.threads i h (TState.doneOk t item)
    have hP := pendingCount_set N c.threads i h (TState.doneOk t item)
    have hK := okCount_set c.threads i h (TState.doneOk t item)
    simp only [TState.isSucc, TState.isPending, TState.isOk,
      Bool.false_eq_true, if_false, if_true] at hS hP hK
    have he := hinv.ticket_eq
    have hsl := hinv.succ_le
    have hlen := hinv.len_eq
    have hsame : ∀ j,
        succTicketAt N (c.threads.set i (TState.doneOk t item)) j =
          succTicketAt N c.threads j := by
      intro j
      rcases eq_or_ne j i with rfl | hne
      · rw [succTicketAt, hset, succTicketAt, h, Option.some_bind,
          Option.some_bind]
        simp only [TState.succTicket]
      · rw [succTicketAt, hother j hne, succTicketAt]
    refine ⟨?_, ?_, ?_, ?_, ?_, ?_, ?_, ?_, ?_, ?_, ?_⟩
    · show c.shared.ticket =
        succCount N (c.threads.set i (TState.doneOk t item)) +
          pendingCount N (c.threads.set i (TState.doneOk t item))
      omega
    · show succCount N (c.threads.set i (TState.doneOk t item)) ≤ N
      omega
    · show 0 < pendingCount N (c.threads.set i (TState.doneOk t item)) →
        succCount N (c.threads.set i (TState.doneOk t item)) = N
      intro hpos
      have := hinv.pending_full (by omega)
      omega
    · show c.shared.len + 1 = okCount (c.threads.set i (TState.doneOk t item))
      omega
    · intro j t2 item2 hj
      show t2 < c.shared.len + 1
      rcases eq_or_ne j i with rfl | hne
      · rw [hset] at hj
        have hj2 : t = t2 ∧ item = item2 := by simpa using hj
        omega
      · rw [hother j hne] at hj
        have := hinv.ok_lt_len j t2 item2 hj
        omega
    · intro j t2 hj
      rw [hsame j] at hj
      show t2 < succCount N (c.threads.set i (TState.doneOk t item))
      have := hinv.tk_lt_succ j t2 hj
      omega
    · intro j k tj tk2 hjk hj hk
      rw [hsame j] at hj
      rw [hsame k] at hk
      exact hinv.tk_distinct j k tj tk2 hjk hj hk
    · intro t2 ht2
      have ht2c : t2 < succCount N (c.threads.set i (TState.doneOk t item)) :=
        ht2
      have ht2b : t2 < succCount N c.threads := by omega
      rcases hinv.tk_surj t2 ht2b with ⟨j, hj⟩
      exact ⟨j, by rw [hsame j]; exact hj⟩
    · intro t2 ht2
      have ht2c : t2 < c.shared.len + 1 := ht2
      rcases Nat.lt_succ_iff_lt_or_eq.mp ht2c with hlt | rfl
      · rcases hinv.ok_surj t2 hlt with ⟨j, item2, hj⟩
        have hnej : j ≠ i := by
          intro e; rw [e, h] at hj; exact absurd hj (by simp)
        exact ⟨j, item2, by rw [hother j hnej]; exact hj⟩
      · refine ⟨i, item, ?_⟩
        rw [hset, heq]
    · intro j t2 item2 hj
      show c.shared.array t2 = some item2
      rcases eq_or_ne j i with rfl | hne
      · rcases hj with hj | hj
        · rw [hset] at hj
          exact absurd hj (by simp)
        · rw [hset] at hj
          have hj2 : t = t2 ∧ item = item2 := by simpa using hj
          rcases hj2 with ⟨rfl, rfl⟩
          exact hinv.slot_val _ t item (Or.inl h)
      · rw [hother j hne] at hj
        exact hinv.slot_val j t2 item2 hj
    · rintro ⟨j, item2, hj⟩
      have hnej : j ≠ i := by
        intro e; rw [e, hset] at hj; exact absurd hj (by simp)
      rw [hother j hnej] at hj
      have := hinv.err_full ⟨j, item2, hj⟩
      show succCount N (c.threads.set i (TState.doneOk t item)) = N
      omega

/-- Every reachable configuration satisfies the invariant. -/
theorem inv_reachable {N : Nat} {items : List T} {c : Config T N}
    (h : Reachable N items c) : ArrInv N c := by
  induction h with
  | refl => exact inv_init N items
  | tail hsteps hstep ih => exact inv_step ih hstep

/-- Completed successes are successful reservations, so `okCount` never
exceeds `succCount`. -/
theorem okCount_le_succCount (N : Nat) (ths : List (TState T)) :
    okCount ths ≤ succCount N ths := by
  apply List.countP_mono_left
  intro s _ hs
  cases s with
  | start item => simp [TState.isOk] at hs
  | gotTicket t item => simp [TState.isOk] at hs
  | waiting t item => simp [TState.isOk] at hs
  | doneOk t item => rfl
  | doneErr item => simp [TState.isOk] at hs

/-- A completed success holds its returned index as its reservation. -/
theorem succTicketAt_of_doneOk {N : Nat} {ths : List (TState T)} {j t : Nat}
    {item : T} (h : ths[j]? = some (TState.doneOk t item)) :
    succTicketAt N ths j = some t := by
  rw [succTicketAt, h, Option.some_bind]
  rfl

/-- One step never shrinks the published prefix and never rewrites a slot
below it: published slots are immutable. -/
theorem step_published_stable {N : Nat} {c c2 : Config T N}
    (hinv : ArrInv N c) (hs : Step N c c2) :
    c.shared.len ≤ c2.shared.len ∧
      ∀ t, t < c.shared.len → c2.shared.array t = c.shared.array t := by
  cases hs with
  | fetchTicket i item h => exact ⟨Nat.le_refl _, fun t ht => rfl⟩
  | rollback i t item h hb => exact ⟨Nat.le_refl _, fun t2 ht => rfl⟩
  | spinLoad i t item h hne => exact ⟨Nat.le_refl _, fun t2 ht => rfl⟩
  | publish i t item h heq => exact ⟨Nat.le_succ _, fun t2 ht => rfl⟩
  | writeSlot i t item h hb =>
    refine ⟨Nat.le_refl _, fun t2 ht => ?_⟩
    show (if t2 = t then some item else c.shared.array t2) = c.shared.array t2
    have hge : ¬ t < c.shared.len := by
      intro hlt
      rcases hinv.ok_surj t hlt with ⟨j, item2, hj⟩
      have hji : j ≠ i := by
        intro e; rw [e, h] at hj; exact absurd hj (by simp)
      have htkj : succTicketAt N c.threads j = some t :=
        succTicketAt_of_doneOk hj
      have htki : succTicketAt N c.threads i = some t := by
        rw [succTicketAt, h, Option.some_bind]
        simp [TState.succTicket, hb]
      exact hinv.tk_distinct j i t t hji htkj htki rfl
    rw [if_neg (by omega : t2 ≠ t)]

/-- Published slots stay published and unchanged across any execution. -/
theorem steps_published_stable {N : Nat} {items : List T} {c c2 : Config T N}
    (hreach : Reachable N items c)
    (hs : Relation.ReflTransGen (Step N) c c2) :
    c.shared.len ≤ c2.shared.len ∧
      ∀ t, t < c.shared.len → c2.shared.array t = c.shared.array t := by
  induction hs with
  | refl => exact ⟨Nat.le_refl _, fun t ht => rfl⟩
  | tail hab hbc ih =>
    have hstep := step_published_stable
      (inv_reachable (Relation.ReflTransGen.trans hreach hab)) hbc
    exact ⟨Nat.le_trans ih.1 hstep.1, fun t ht =>
      (hstep.2 t (Nat.lt_of_lt_of_le ht ih.1)).trans (ih.2 t ht)⟩

/-- A call that can only ever end in `ArrayFull`: not yet started, holding
an out-of-bounds reservation, or already failed. -/
def Doomed (N : Nat) : TState T → Prop
  | TState.start _ => True
  | TState.gotTicket t _ => N ≤ t
  | TState.waiting _ _ => False
  | TState.doneOk _ _ => False
  | TState.doneErr _ => True

/-- An element surfaced by `getElem?` is a member of the list. -/
theorem mem_of_getElem?_eq_some {α : Type} {l : List α} {i : Nat} {a : α}
    (h : l[i]? = some a) : a ∈ l := by
  rcases List.getElem?_eq_some.mp h with ⟨hl, rfl⟩
  exact List.getElem_mem hl

/-- A pending out-of-bounds reservation forces `pendingCount` positive. -/
theorem pendingCount_pos_of_mem {N : Nat} {ths : List (TState T)}
    {i t : Nat} {item : T}
    (h : ths[i]? = some (TState.gotTicket t item)) (hb : N ≤ t) :
    0 < pendingCount N ths := by
  apply List.countP_pos_iff.mpr
  refine ⟨TState.gotTicket t item, mem_of_getElem?_eq_some h, ?_⟩
  simp [TState.isPending, hb]

/-- Once all `N` reservations are granted, one more step keeps the array
full and keeps every doomed call doomed. -/
theorem step_full_stable {N : Nat} {c c2 : Config T N} (hinv : ArrInv N c)
    (hfull : succCount N c.threads = N) (hs : Step N c c2) :
    succCount N c2.threads = N ∧
      ∀ i : Nat, (∀ s, c.threads[i]? = some s → Doomed N s) →
        ∀ s2, c2.threads[i]? = some s2 → Doomed N s2 := by
  have he := hinv.ticket_eq
  cases hs with
  | spinLoad i t item h hne => exact ⟨hfull, fun i hd s2 h2 => hd s2 h2⟩
  | fetchTicket i item h =>
    have htk : N ≤ c.shared.ticket := by omega
    have hS := succCount_set N c.threads i h
      (TState.gotTicket c.shared.ticket item)
    simp only [TState.isSucc, Bool.false_eq_true, if_false,
      decide_eq_true_eq] at hS
    rw [if_neg (by omega : ¬ c.shared.ticket < N)] at hS
    have hS2 : succCount N (c.threads.set i
      (TState.gotTicket c.shared.ticket item)) = N := by omega
    refine ⟨hS2, ?_⟩
    intro j hd s2 h2
    rcases eq_or_ne j i with rfl | hne
    · rw [getElem?_set_of_get h _] at h2
      cases h2
      exact htk
    · rw [List.getElem?_set_ne hne.symm] at h2
      exact hd s2 h2
  | rollback i t item h hb =>
    have hS := succCount_set N c.threads i h (TState.doneErr item)
    simp only [TState.isSucc, Bool.false_eq_true, if_false,
      decide_eq_true_eq] at hS
    rw [if_neg (by omega : ¬ t < N)] at hS
    have hS2 : succCount N (c.threads.set i (TState.doneErr item)) = N := by
      omega
    refine ⟨hS2, ?_⟩
    intro j hd s2 h2
    rcases eq_or_ne j i with rfl | hne
    · rw [getElem?_set_of_get h _] at h2
      cases h2
      trivial
    · rw [List.getElem?_set_ne hne.symm] at h2
      exact hd s2 h2
  | writeSlot i t item h hb =>
    have hS := succCount_set N c.threads i h (TState.waiting t item)
    simp only [TState.isSucc, Bool.false_eq_true, if_false,
      decide_eq_true_eq, if_true] at hS
    rw [if_pos hb] at hS
    have hS2 : succCount N (c.threads.set i (TState.waiting t item)) = N := by
      omega
    refine ⟨hS2, ?_⟩
    intro j hd s2 h2
    rcases eq_or_ne j i with rfl | hne
    · exact absurd (hd _ h) (by simp [Doomed]; omega)
    · rw [List.getElem?_set_ne hne.symm] at h2
      exact hd s2 h2
  | publish i t item h heq =>
    have hS := succCount_set N c.threads i h (TState.doneOk t item)
    simp only [TState.isSucc, Bool.false_eq_true, if_false, if_true] at hS
    have hS2 : succCount N (c.threads.set i (TState.doneOk t item)) = N := by
      omega
    refine ⟨hS2, ?_⟩
    intro j hd s2 h2
    rcases eq_or_ne j i with rfl | hne
    · exact absurd (hd _ h) (by simp [Doomed])
    · rw [List.getElem?_set_ne hne.symm] at h2
      exact hd s2 h2

/-- Once all `N` reservations are granted, every later configuration is
still full and every doomed call stays doomed, over any number of steps. -/
theorem steps_full_stable {N : Nat} {items : List T} {c c2 : Config T N}
    (hreach : Reachable N items c) (hfull : succCount N c.threads = N)
    (hs : Relation.ReflTransGen (Step N) c c2) :
    succCount N c2.threads = N ∧
      ∀ i : Nat, (∀ s, c.threads[i]? = some s → Doomed N s) →
        ∀ s2, c2.threads[i]? = some s2 → Doomed N s2 := by
  induction hs with
  | refl => exact ⟨hfull, fun i hd s2 h2 => hd s2 h2⟩
  | tail hab hbc ih =>
    have hstep := step_full_stable
      (inv_reachable (Relation.ReflTransGen.trans hreach hab)) ih.1 hbc
    exact ⟨hstep.1, fun i hd s2 h2 => hstep.2 i (ih.2 i hd) s2 h2⟩

/-- When the ticket counter has reached capacity, `append` rolls the counter
back and returns `ArrayFull`, leaving the state exactly as it was. -/
theorem append_of_full {N : Nat} (a : AppendArray T N) (item : T)
    (h : N ≤ a.ticket) :
    a.append item = some (Except.error AppendArrayError.ArrayFull, a) := by
  simp only [AppendArray.append]
  rw [if_pos h, Nat.add_sub_cancel]

/-- When the reservation is in bounds and every previous reservation is
published, `append` returns immediately with the reserved index. -/
theorem append_of_ready {N : Nat} (a : AppendArray T N) (item : T)
    (hlt : a.ticket < N) (hready : a.len = a.ticket) :
    a.append item = some (Except.ok a.ticket,
      { ticket := a.ticket + 1, len := a.len + 1,
        array := fun j => if j = a.ticket then some item else a.array j }) := by
  simp only [AppendArray.append]
  rw [if_neg (by omega : ¬ N ≤ a.ticket), if_pos hready]

/-- The sequential `append` diverges exactly when the busy-wait of step 4 is
entered with `len ≠ ticket`. -/
theorem append_none_iff {N : Nat} (a : AppendArray T N) (item : T) :
    a.append item = none ↔ a.ticket < N ∧ a.len ≠ a.ticket := by
  cases a with
  | mk tk ln arr =>
    simp only [AppendArray.append]
    by_cases h : N ≤ tk
    · rw [if_pos h]
      simp only [reduceCtorEq, false_iff]
      omega
    · rw [if_neg h]
      by_cases h2 : ln = tk
      · rw [if_pos h2]
        simp only [reduceCtorEq, false_iff]
        omega
      · rw [if_neg h2]
        simp only [true_iff]
        omega

/-- With the ticket counter at or past capacity, every sequential append
fails with `ArrayFull` and the state never changes. -/
theorem appendAll_full {N : Nat} (a : AppendArray T N) (h : N ≤ a.ticket) :
    ∀ items : List T, a.appendAll items =
      some (items.map (fun _ => Except.error AppendArrayError.ArrayFull), a)
  | [] => by simp [AppendArray.appendAll]
  | x :: xs => by
    simp [AppendArray.appendAll, append_of_full a x h, appendAll_full a h xs]

/-- The configuration after one full `append(5)` on a fresh capacity-1
array: the element is published and the call has returned index 0. -/
def demoConfig : Config Nat 1 :=
  ⟨⟨1, 1, fun j => if j = 0 then some 5 else none⟩, [TState.doneOk 0 5]⟩

/-- `demoConfig` is reached by the three atomic steps of a single
uncontended `append(5)`. -/
theorem demoConfig_reachable : Reachable 1 [5] demoConfig :=
  Relation.ReflTransGen.head (Step.fetchTicket _ 0 5 rfl)
    (Relation.ReflTransGen.head (Step.writeSlot _ 0 0 5 rfl (by decide))
      (Relation.ReflTransGen.head (Step.publish _ 0 0 5 rfl rfl)
        Relation.ReflTransGen.refl))

/-- C1: for an `AppendArray` of capacity `N`, at most `N` calls to `append`
ever succeed; successful appends return distinct, consecutive indices
starting at 0 with none skipped or duplicated; and after `k` appends have
succeeded the readable length equals `k`. -/
theorem append_indices_consecutive_and_len {N : Nat} {items : List T}
    {c : Config T N} (h : Reachable N items c) :
    okCount c.threads ≤ N ∧
    c.shared.len = okCount c.threads ∧
    (∀ t : Nat, (∃ (i : Nat) (item : T),
        c.threads[i]? = some (TState.doneOk t item)) ↔ t < c.shared.len) ∧
    (∀ (i j t t2 : Nat) (item item2 : T), i ≠ j →
        c.threads[i]? = some (TState.doneOk t item) →
        c.threads[j]? = some (TState.doneOk t2 item2) → t ≠ t2) := by
  have hinv := inv_reachable h
  refine ⟨?_, hinv.len_eq, ?_, ?_⟩
  · exact Nat.le_trans (okCount_le_succCount N _) hinv.succ_le
  · intro t
    constructor
    · rintro ⟨i, item, hi⟩
      exact hinv.ok_lt_len i t item hi
    · intro ht
      exact hinv.ok_surj t ht
  · intro i j t t2 item item2 hne hi hj
    exact hinv.tk_distinct i j t t2 hne (succTicketAt_of_doneOk hi)
      (succTicketAt_of_doneOk hj)

/-- Witness for C1 at the concrete configuration `demoConfig`. -/
theorem append_indices_consecutive_and_len_witness :
    okCount demoConfig.threads ≤ 1 ∧
    demoConfig.shared.len = okCount demoConfig.threads ∧
    (∀ t : Nat, (∃ (i : Nat) (item : Nat),
        demoConfig.threads[i]? = some (TState.doneOk t item)) ↔
      t < demoConfig.shared.len) ∧
    (∀ (i j t t2 : Nat) (item item2 : Nat), i ≠ j →
        demoConfig.threads[i]? = some (TState.doneOk t item) →
        demoConfig.threads[j]? = some (TState.doneOk t2 item2) → t ≠ t2) :=
  append_indices_consecutive_and_len demoConfig_reachable

/-- C2: a call is told `ArrayFull` only when all `N` slots have been
successfully reserved; once that happens it stays true forever, the
readable length never exceeds `N`, and a call that has not started yet can
never again succeed. -/
theorem arrayFull_iff_capacity_exhausted {N : Nat} {items : List T}
    {c c2 : Config T N} (hreach : Reachable N items c)
    (hsteps : Relation.ReflTransGen (Step N) c c2) :
    (∀ (i t : Nat) (item : T),
        c.threads[i]? = some (TState.gotTicket t item) → N ≤ t →
          succCount N c.threads = N) ∧
    (∀ (i : Nat) (item : T), c.threads[i]? = some (TState.doneErr item) →
        succCount N c.threads = N) ∧
    c.shared.len ≤ N ∧
    (succCount N c.threads = N → succCount N c2.threads = N ∧
      ∀ (i : Nat) (item : T), c.threads[i]? = some (TState.start item) →
        ∀ (t : Nat) (item2 : T),
          c2.threads[i]? = some (TState.doneOk t item2) → False) := by
  have hinv := inv_reachable hreach
  refine ⟨?_, ?_, ?_, ?_⟩
  · intro i t item hi hb
    exact hinv.pending_full (pendingCount_pos_of_mem hi hb)
  · intro i item hi
    exact hinv.err_full ⟨i, item, hi⟩
  · rw [hinv.len_eq]
    exact Nat.le_trans (okCount_le_succCount N _) hinv.succ_le
  · intro hfull
    have hst := steps_full_stable hreach hfull hsteps
    refine ⟨hst.1, ?_⟩
    intro i item hi t item2 hi2
    have hd := hst.2 i
      (fun s hs => by rw [hi] at hs; cases hs; trivial)
      (TState.doneOk t item2) hi2
    exact hd

/-- Witness for C2 at the full configuration `demoConfig`. -/
theorem arrayFull_iff_capacity_exhausted_witness :
    (∀ (i t : Nat) (item : Nat),
        demoConfig.threads[i]? = some (TState.gotTicket t item) → 1 ≤ t →
          succCount 1 demoConfig.threads = 1) ∧
    (∀ (i : Nat) (item : Nat),
        demoConfig.threads[i]? = some (TState.doneErr item) →
          succCount 1 demoConfig.threads = 1) ∧
    demoConfig.shared.len ≤ 1 ∧
    (succCount 1 demoConfig.threads = 1 →
      succCount 1 demoConfig.threads = 1 ∧
      ∀ (i : Nat) (item : Nat),
        demoConfig.threads[i]? = some (TState.start item) →
        ∀ (t : Nat) (item2 : Nat),
          demoConfig.threads[i]? = some (TState.doneOk t item2) → False) :=
  arrayFull_iff_capacity_exhausted demoConfig_reachable
    Relation.ReflTransGen.refl

/-- C3: every published index reads back exactly the value passed to the
append call that returned that index, now and after any further execution;
and the concrete scenario (capacity 1024, append 31 then 35) returns
indices 0 and 1 with `array[0] = 31`, `array[1] = 35`, length 2 and last
element 35. -/
theorem published_reads_match_appends {N : Nat} {items : List T}
    {c c2 : Config T N} (hreach : Reachable N items c)
    (hsteps : Relation.ReflTransGen (Step N) c c2)
    (i t : Nat) (item : T)
    (hi : c.threads[i]? = some (TState.doneOk t item)) :
    t < c.shared.len ∧
    c.shared.index t = some item ∧
    c2.shared.index t = some item ∧
    (((AppendArray.default Nat 1024).appendAll [31, 35]).map
        (fun p => (p.1, p.2.index 0, p.2.index 1, p.2.len, p.2.lastElem)) =
      some ([Except.ok 0, Except.ok 1], some 31, some 35, 2, some 35)) := by
  have hinv := inv_reachable hreach
  have hlt := hinv.ok_lt_len i t item hi
  have hv := hinv.slot_val i t item (Or.inr hi)
  have hst := steps_published_stable hreach hsteps
  refine ⟨hlt, ?_, ?_, ?_⟩
  · rw [AppendArray.index, if_pos hlt]
    exact hv
  · rw [AppendArray.index, if_pos (Nat.lt_of_lt_of_le hlt hst.1)]
    rw [hst.2 t hlt]
    exact hv
  · rfl

/-- Witness for C3 at `demoConfig`, whose single call returned index 0 for
value 5. -/
theorem published_reads_match_appends_witness :
    0 < demoConfig.shared.len ∧
    demoConfig.shared.index 0 = some 5 ∧
    demoConfig.shared.index 0 = some 5 ∧
    (((AppendArray.default Nat 1024).appendAll [31, 35]).map
        (fun p => (p.1, p.2.index 0, p.2.index 1, p.2.len, p.2.lastElem)) =
      some ([Except.ok 0, Except.ok 1], some 31, some 35, 2, some 35)) :=
  published_reads_match_appends demoConfig_reachable
    Relation.ReflTransGen.refl 0 0 5 rfl

/-- C4: in every reachable state, `0 ≤ published_len ≤ next_ticket_effective
≤ N`, where `next_ticket_effective` is the number of successful reservations
ever granted (`succCount`). -/
theorem counter_invariant_reachable {N : Nat} {items : List T}
    {c : Config T N} (h : Reachable N items c) :
    0 ≤ c.shared.len ∧ c.shared.len ≤ succCount N c.threads ∧
      succCount N c.threads ≤ N := by
  have hinv := inv_reachable h
  refine ⟨Nat.zero_le _, ?_, hinv.succ_le⟩
  rw [hinv.len_eq]
  exact okCount_le_succCount N _

/-- Witness for C4 at `demoConfig`. -/
theorem counter_invariant_reachable_witness :
    0 ≤ demoConfig.shared.len ∧
    demoConfig.shared.len ≤ succCount 1 demoConfig.threads ∧
      succCount 1 demoConfig.threads ≤ 1 :=
  counter_invariant_reachable demoConfig_reachable

/-- C5: an `append` on a full array returns `ArrayFull` and hands back the
state exactly as it was: the ticket counter is restored by the rollback
decrement, the length is untouched, and no slot is written. -/
theorem append_full_leaves_state_unchanged {N : Nat} (a : AppendArray T N)
    (item : T) (h : N ≤ a.ticket) :
    a.append item = some (Except.error AppendArrayError.ArrayFull, a) :=
  append_of_full a item h

/-- Witness for C5 on a fresh capacity-0 array. -/
theorem append_full_leaves_state_unchanged_witness :
    (AppendArray.default Nat 0).append 7 =
      some (Except.error AppendArrayError.ArrayFull,
        AppendArray.default Nat 0) :=
  append_full_leaves_state_unchanged (AppendArray.default Nat 0) 7
    (Nat.le_refl 0)

/-- C6: indexing the read view at or past the readable length panics
(modelled as `none`) and never returns data; in particular every index of a
freshly-constructed array panics. -/
theorem index_out_of_bounds_panics {N : Nat} (a : AppendArray T N)
    (i j : Nat) (h : a.len ≤ i) :
    a.index i = none ∧ (AppendArray.default T N).index j = none := by
  constructor
  · rw [AppendArray.index, if_neg (by omega : ¬ i < a.len)]
  · rw [AppendArray.index, if_neg]
    exact Nat.not_lt_zero j

/-- Witness for C6 on a fresh capacity-3 array. -/
theorem index_out_of_bounds_panics_witness :
    (AppendArray.default Nat 3).index 0 = none ∧
    (AppendArray.default Nat 3).index 5 = none :=
  index_out_of_bounds_panics (AppendArray.default Nat 3) 0 5 (Nat.le_refl 0)

/-- C7: on destruction, the destructor runs exactly once for each published
slot, every such slot holds a value, and no slot at or beyond the published
length is ever destructed. -/
theorem drop_each_published_once {N : Nat} {items : List T} {c : Config T N}
    (h : Reachable N items c) :
    (∀ i : Nat, i < c.shared.len →
      c.shared.dropTargets.count i = 1 ∧ (c.shared.array i).isSome) ∧
    (∀ i : Nat, c.shared.len ≤ i → c.shared.dropTargets.count i = 0) := by
  have hinv := inv_reachable h
  constructor
  · intro i hi
    constructor
    · exact List.count_eq_one_of_mem (List.nodup_range _)
        (List.mem_range.mpr hi)
    · rcases hinv.ok_surj i hi with ⟨j, item, hj⟩
      rw [hinv.slot_val j i item (Or.inr hj)]
      rfl
  · intro i hi
    apply List.count_eq_zero_of_not_mem
    rw [AppendArray.dropTargets, List.mem_range]
    omega

/-- Witness for C7 at `demoConfig`. -/
theorem drop_each_published_once_witness :
    (∀ i : Nat, i < demoConfig.shared.len →
      demoConfig.shared.dropTargets.count i = 1 ∧
        (demoConfig.shared.array i).isSome) ∧
    (∀ i : Nat, demoConfig.shared.len ≤ i →
      demoConfig.shared.dropTargets.count i = 0) :=
  drop_each_published_once demoConfig_reachable

/-- C8: the publication increment of `len` in `append` is a release-store
and the `Deref` view sizes the readable range with an acquire-load of
`len`; in the interleaved model, any observer of the incremented length
finds every slot below it written with the value of the append call that
returned that index. -/
theorem publication_release_acquire_visibility {N : Nat} {items : List T}
    {c : Config T N} (h : Reachable N items c) :
    List.lookup "len.fetch_add" appendAtomicOrderings =
      some MemOrdering.release ∧
    derefAtomicOrderings = [("len.load", MemOrdering.acquire)] ∧
    (∀ t : Nat, t < c.shared.len → ∃ (i : Nat) (item : T),
      c.threads[i]? = some (TState.doneOk t item) ∧
        c.shared.array t = some item) := by
  refine ⟨rfl, rfl, ?_⟩
  have hinv := inv_reachable h
  intro t ht
  rcases hinv.ok_surj t ht with ⟨i, item, hi⟩
  exact ⟨i, item, hi, hinv.slot_val i t item (Or.inr hi)⟩

/-- Witness for C8 at `demoConfig`. -/
theorem publication_release_acquire_visibility_witness :
    List.lookup "len.fetch_add" appendAtomicOrderings =
      some MemOrdering.release ∧
    derefAtomicOrderings = [("len.load", MemOrdering.acquire)] ∧
    (∀ t : Nat, t < demoConfig.shared.len → ∃ (i : Nat) (item : Nat),
      demoConfig.threads[i]? = some (TState.doneOk t item) ∧
        demoConfig.shared.array t = some item) :=
  publication_release_acquire_visibility demoConfig_reachable

/-- C9: the only way `append` can fail to return (sequentially, diverge) is
the step-4 busy-poll with `len ≠ ticket`; when every previously granted
reservation is already published the wait passes immediately and `append`
returns. -/
theorem append_spin_only_suspension {N : Nat} (a : AppendArray T N)
    (item : T) (h : a.len = a.ticket) :
    (∃ r, a.append item = some r) ∧
    (∀ (b : AppendArray T N) (item2 : T),
      b.append item2 = none ↔ b.ticket < N ∧ b.len ≠ b.ticket) := by
  constructor
  · by_cases hlt : a.ticket < N
    · exact ⟨_, append_of_ready a item hlt h⟩
    · exact ⟨_, append_of_full a item (by omega)⟩
  · intro b item2
    exact append_none_iff b item2

/-- Witness for C9 on a fresh capacity-2 array. -/
theorem append_spin_only_suspension_witness :
    (∃ r, (AppendArray.default Nat 2).append 9 = some r) ∧
    (∀ (b : AppendArray Nat 2) (item2 : Nat),
      b.append item2 = none ↔ b.ticket < 2 ∧ b.len ≠ b.ticket) :=
  append_spin_only_suspension (AppendArray.default Nat 2) 9 rfl

/-- C10: on a fresh capacity-0 array every append call, including the very
first, returns `ArrayFull`, the state never changes, and the readable
length remains 0 forever. -/
theorem append_capacity_zero_always_full (T : Type) (items : List T) :
    (AppendArray.default T 0).appendAll items =
      some (items.map (fun _ => Except.error AppendArrayError.ArrayFull),
        AppendArray.default T 0) ∧
    (AppendArray.default T 0).len = 0 :=
  ⟨appendAll_full (AppendArray.default T 0) (Nat.le_refl 0) items, rfl⟩

/-- Witness for C10 with three attempted appends. -/
theorem append_capacity_zero_always_full_witness :
    (AppendArray.default Nat 0).appendAll [3, 4, 5] =
      some ([3, 4, 5].map (fun _ => Except.error AppendArrayError.ArrayFull),
        AppendArray.default Nat 0) ∧
    (AppendArray.default Nat 0).len = 0 :=
  append_capacity_zero_always_full Nat [3, 4, 5]
